import Mathlib

/-!
Verification of the lazy-iterator library (itertools port).

The TypeScript sources are embedded shallowly: generators over finite
upstream sequences become pure Lean functions on lists, with explicit
state passing where several consumers share one cursor.  JS numbers that
participate in arithmetic are modelled as Int; list indexing and the
Array slice method are modelled by helper functions mirroring the JS
semantics actually exercised by the code.
-/

namespace Itertools

/-- JS Array.prototype.slice with two arguments: negative positions count
from the end of the array and everything is clamped to the array bounds. -/
def jsSlice (xs : List α) (s e : Int) : List α :=
  let n : Int := xs.length
  let s1 : Nat := (if s < 0 then max (n + s) 0 else min s n).toNat
  let e1 : Nat := (if e < 0 then max (n + e) 0 else min e n).toNat
  (xs.take e1).drop s1

/-- JS Array.prototype.slice with one argument (slice from a position to
the end of the array). -/
def jsSliceFrom (xs : List α) (s : Int) : List α :=
  jsSlice xs s xs.length

/-- JS array indexing pool[i] for the in-bounds indices the library
actually uses (out-of-bounds access, which the code never performs on a
reachable state, is mapped to the default element). -/
def jsGetD [Inhabited α] (xs : List α) (i : Int) : α :=
  if i < 0 then default else xs.getD i.toNat default

/-- JS array indexing on integer arrays, returning 0 out of bounds (the
library only reads in-bounds positions on reachable states). -/
def jsGetI (xs : List Int) (i : Int) : Int :=
  if i < 0 then 0 else xs.getD i.toNat 0

/-- JS array element assignment arr[i] = v on integer arrays (only used
with in-bounds indices, where JS assignment keeps the length). -/
def jsSetI (xs : List Int) (i : Int) (v : Int) : List Int :=
  xs.set i.toNat v

/-- Source function range_ from builtins.ts: yields n, n + step, ... as
long as n < stop (for step >= 0) resp. n > stop (for step < 0).  The
recursion is driven by a fuel counter; rangeList below supplies fuel
that covers every value the JS loop would produce for the nonzero steps
the library uses. -/
def rangeAux : Nat → Int → Int → Int → List Int
  | 0, _, _, _ => []
  | fuel + 1, n, stop, step =>
    if (if step ≥ 0 then n < stop else n > stop) then
      n :: rangeAux fuel (n + step) stop step
    else []

/-- Source function range from builtins.ts, three-argument form.  For
steps of magnitude at least 1 the produced count is bounded by the
distance from start to stop, so the supplied fuel is sufficient. -/
def rangeList (start stop step : Int) : List Int :=
  rangeAux ((stop - start).natAbs + 1) start stop step

/-- Source helper composeAnd from itertools.ts. -/
def composeAnd (f1 f2 : Int → Bool) : Int → Bool :=
  fun n => f1 n && f2 n

/-- The three usage errors slicePredicate can raise, in source order. -/
inductive SliceError where
  | startNegative
  | stopNegative
  | stepNegative
deriving DecidableEq, Repr

/-- The stop parameter check from slicePredicate: stop is non-null and
negative. -/
def stopIsNeg : Option Int → Bool
  | none => false
  | some s => decide (s < 0)

/-- Source function slicePredicate from itertools.ts: validates the
slice parameters, then builds the index predicate by conjunction. -/
def slicePredicate (start : Int) (stop : Option Int) (step : Int) :
    Except SliceError (Int → Bool) :=
  if start < 0 then Except.error SliceError.startNegative
  else if stopIsNeg stop then Except.error SliceError.stopNegative
  else if step < 0 then Except.error SliceError.stepNegative
  else
    let pred0 : Int → Bool := fun n => decide (n ≥ start)
    let pred1 : Int → Bool :=
      match stop with
      | some definedStop => composeAnd pred0 (fun n => decide (n < definedStop))
      | none => pred0
    let pred2 : Int → Bool :=
      if step > 1 then composeAnd pred1 (fun n => (n - start) % step == 0)
      else pred1
    Except.ok pred2

/-- Whether slicePredicate raises, and which error.  none means the
parameters were accepted. -/
def sliceParamsError (start : Int) (stop : Option Int) (step : Int) :
    Option SliceError :=
  match slicePredicate start stop step with
  | Except.error e => some e
  | Except.ok _ => none

/-- The islice generator loop from itertools.ts: iterates the enumerated
upstream (the index counter models enumerate) and yields the elements
whose index satisfies the predicate.  The loop in the source has no
early exit, so it runs until the upstream is exhausted.  The result
records the yielded elements, the number of upstream elements pulled,
and the elements left unconsumed on the shared upstream cursor. -/
def isliceRun (pred : Int → Bool) : Int → List α → List α × Nat × List α
  | _, [] => ([], 0, [])
  | i, x :: xs =>
    let r := isliceRun pred (i + 1) xs
    (if pred i then x :: r.1 else r.1, r.2.1 + 1, r.2.2)

/-- Source function islice from itertools.ts in its explicit
(start, stop, step) form, over a finite upstream modelled as a list:
parameter validation happens before any upstream element is pulled, then
the enumerate-and-filter loop runs. -/
def islice (xs : List α) (start : Int) (stop : Option Int) (step : Int) :
    Except SliceError (List α × Nat × List α) :=
  match slicePredicate start stop step with
  | Except.error e => Except.error e
  | Except.ok pred => Except.ok (isliceRun pred 0 xs)

/-- The poolgetter closure from permutations in itertools.ts: maps a
pool index to the pooled element. -/
def poolgetter [Inhabited α] (pool : List α) (i : Int) : α :=
  jsGetD pool i

/-- The inner for-loop of the permutations generator, scanning i over
range(x - 1, -1, -1).  Each step decrements cycles[i]; on reaching zero
it rotates the tail of indices and resets the counter, otherwise it
swaps two indices, yields the current selection and breaks.  The result
carries the updated indices and cycles together with the yielded tuple
(none models the cleanExit path, where the generator returns). -/
def permScan [Inhabited α] (pool : List α) (n x : Int) :
    List Int → List Int → List Int → List Int × List Int × Option (List α)
  | [], indices, cycles => (indices, cycles, none)
  | i :: is, indices, cycles =>
    let ci := jsGetI cycles i - 1
    let cycles1 := jsSetI cycles i ci
    if ci = 0 then
      let indices1 :=
        jsSlice indices 0 i ++ jsSliceFrom indices (i + 1) ++ jsSlice indices i (i + 1)
      let cycles2 := jsSetI cycles1 i (n - i)
      permScan pool n x is indices1 cycles2
    else
      let j := ci
      let len : Int := indices.length
      let p := jsGetI indices (len - j)
      let q := jsGetI indices i
      let indices1 := jsSetI indices i p
      let indices2 := jsSetI indices1 (len - j) q
      (indices2, cycles1, some ((jsSlice indices2 0 x).map (poolgetter pool)))

/-- The while (n > 0) loop of the permutations generator.  Each
iteration runs the scan once; a swap yields one tuple and continues, a
clean exit returns.  The fuel supplied by the permutations wrapper
strictly exceeds the number of iterations the JS loop performs (at most
one per emitted tuple plus the final clean exit), so the truncation case
is never reached. -/
def permLoop [Inhabited α] (pool : List α) (n x : Int) :
    Nat → List Int → List Int → List (List α)
  | 0, _, _ => []
  | fuel + 1, indices, cycles =>
    if n > 0 then
      match permScan pool n x (rangeList (x - 1) (-1) (-1)) indices cycles with
      | (indices1, cycles1, some tup) => tup :: permLoop pool n x fuel indices1 cycles1
      | (_, _, none) => []
    else []

/-- Source function permutations from itertools.ts over a materialized
pool: r = none models the omitted optional parameter.  When x exceeds
the pool size the generator returns before yielding; otherwise the first
selection is yielded and the cycling loop runs. -/
def permutations [Inhabited α] (pool : List α) (r : Option Int) : List (List α) :=
  let n : Int := pool.length
  let x : Int := match r with | none => n | some r0 => r0
  if x > n then []
  else
    let indices := rangeList 0 n 1
    let cycles := rangeList n (n - x) (-1)
    ((jsSlice indices 0 x).map (poolgetter pool))
      :: permLoop pool n x (Nat.factorial pool.length + 1) indices cycles

/-- One pass of the inner while of roundrobin from more-itertools.ts
over the live list: each cursor in list order is pulled once; a cursor
that reports exhaustion is spliced out without advancing the position,
so the next cursor is tried at the same list slot.  Returns the values
pulled this round and the surviving cursors. -/
def roundrobinRound : List (List α) → List α × List (List α)
  | [] => ([], [])
  | xs :: rest =>
    match xs with
    | [] => roundrobinRound rest
    | y :: ys =>
      let r := roundrobinRound rest
      (y :: r.1, ys :: r.2)

/-- Fuel that strictly dominates the number of outer while iterations of
roundrobin: every round removes a cursor or consumes an element. -/
def roundrobinFuel (its : List (List α)) : Nat :=
  (its.map List.length).sum + its.length + 1

/-- The outer while (iterables.length > 0) loop of roundrobin. -/
def roundrobinLoop : Nat → List (List α) → List α
  | 0, _ => []
  | fuel + 1, its =>
    if its.isEmpty then []
    else
      let r := roundrobinRound its
      r.1 ++ roundrobinLoop fuel r.2

/-- Source function roundrobin from more-itertools.ts, with every input
cursor modelled by its list of remaining elements. -/
def roundrobin (its : List (List α)) : List α :=
  roundrobinLoop (roundrobinFuel its) its

/-- JS Map.get(key).push(item) on the multiples map, modelled on an
insertion-ordered association list: the entry for the key grows in
place, every other entry is untouched. -/
def mapPush [DecidableEq κ] (m : List (κ × List α)) (k : κ) (v : α) :
    List (κ × List α) :=
  m.map (fun p => if p.1 = k then (p.1, p.2 ++ [v]) else p)

/-- JS Map.delete(key) on an insertion-ordered association list with
unique keys. -/
def mapDelete [DecidableEq κ] (m : List (κ × α)) (k : κ) : List (κ × α) :=
  m.filter (fun p => p.1 ≠ k)

/-- The element loop of dupes from more-itertools.ts: keys already in
multiples are appended to their group; keys in singles are promoted
(stored single plus the new element become a fresh multiples entry
appended in promotion order, the single is deleted); fresh keys are
stored as singles.  JS Map iteration order is insertion order, which the
association lists preserve. -/
def dupesLoop [DecidableEq κ] (keyFn : α → κ) :
    List α → List (κ × List α) → List (κ × α) → List (κ × List α)
  | [], multiples, _ => multiples
  | item :: rest, multiples, singles =>
    let key := keyFn item
    if (multiples.lookup key).isSome then
      dupesLoop keyFn rest (mapPush multiples key item) singles
    else
      match singles.lookup key with
      | some stored =>
        dupesLoop keyFn rest (multiples ++ [(key, [stored, item])]) (mapDelete singles key)
      | none => dupesLoop keyFn rest multiples (singles ++ [(key, item)])

/-- Source function dupes from more-itertools.ts: run the element loop
from empty maps and return the multiples values in insertion order. -/
def dupes [DecidableEq κ] (items : List α) (keyFn : α → κ) : List (List α) :=
  (dupesLoop keyFn items [] []).map Prod.snd

/-- The variables shared between the outer groupby generator and its
grouper sub-generators in itertools.ts: the upstream cursor (remaining
elements), currentValue, currentKey and targetKey.  The SENTINEL symbol
is modelled by none in the key fields (it compares equal only to itself
and differs from every real key, exactly like the unique symbol).
outerDone records that the outer generator body has returned. -/
structure GState (α : Type u) (κ : Type v) where
  rest : List α
  currentValue : Option α
  currentKey : Option κ
  targetKey : Option κ
  outerDone : Bool
deriving Repr, DecidableEq

/-- One grouper sub-generator of groupby: its captured tgtKey, whether
its body reached the first yield, and whether its body has returned. -/
structure Grouper (κ : Type v) where
  tgtKey : κ
  started : Bool
  innerDone : Bool
deriving Repr, DecidableEq

/-- The while loop of the outer groupby generator body: while currentKey
equals targetKey, pull upstream (updating currentValue and currentKey);
on upstream exhaustion set currentKey back to the sentinel and finish
the generator.  On loop exit set targetKey and yield the current key,
from which the caller builds the grouper. -/
def outerLoop [DecidableEq κ] (keyFn : α → κ) :
    List α → Option α → Option κ → Option κ → Option κ × GState α κ
  | rest, cv, ck, tk =>
    if ck = tk then
      match rest with
      | [] => (none, ⟨[], cv, none, tk, true⟩)
      | x :: xs => outerLoop keyFn xs (some x) (some (keyFn x)) tk
    else (ck, ⟨rest, cv, ck, ck, false⟩)

/-- One pull on the outer groupby cursor: a finished generator keeps
signalling exhaustion, otherwise the outer loop runs.  A yielded value
some k stands for the pair of k and a fresh grouper with tgtKey k. -/
def outerNext [DecidableEq κ] (keyFn : α → κ) (s : GState α κ) :
    Option κ × GState α κ :=
  if s.outerDone then (none, s)
  else outerLoop keyFn s.rest s.currentValue s.currentKey s.targetKey

/-- One pull on a grouper sub-generator.  A finished grouper keeps
signalling exhaustion.  A grouper that has not started checks the while
condition against the shared currentKey: on match it yields the shared
currentValue, otherwise its body returns at once.  A started grouper
resumes after its yield: it pulls the shared upstream, updates the
shared currentValue and currentKey, and re-checks the while condition
(yielding again on match, returning otherwise).  On reachable states
the yielded currentValue is always present. -/
def grouperNext [DecidableEq κ] (keyFn : α → κ) (g : Grouper κ) (s : GState α κ) :
    Option α × Grouper κ × GState α κ :=
  if g.innerDone then (none, g, s)
  else if g.started = false then
    if s.currentKey = some g.tgtKey then
      (s.currentValue, ⟨g.tgtKey, true, false⟩, s)
    else (none, ⟨g.tgtKey, g.started, true⟩, s)
  else
    match s.rest with
    | [] => (none, ⟨g.tgtKey, g.started, true⟩, s)
    | x :: xs =>
      let s1 : GState α κ :=
        ⟨xs, some x, some (keyFn x), s.targetKey, s.outerDone⟩
      if s1.currentKey = some g.tgtKey then (s1.currentValue, g, s1)
      else (none, ⟨g.tgtKey, g.started, true⟩, s1)

/-- Collecting a grouper to exhaustion (Array.from on the inner cursor).
Each yielding pull either starts the grouper or consumes one upstream
element, so the fuel supplied by the scenario drivers is sufficient. -/
def innerCollect [DecidableEq κ] (keyFn : α → κ) :
    Nat → Grouper κ → GState α κ → List α
  | 0, _, _ => []
  | fuel + 1, g, s =>
    match grouperNext keyFn g s with
    | (some v, g1, s1) => v :: innerCollect keyFn fuel g1 s1
    | (none, _, _) => []

/-- Advancing the outer groupby cursor a given number of times,
discarding the yielded groups. -/
def outerSkip [DecidableEq κ] (keyFn : α → κ) : Nat → GState α κ → GState α κ
  | 0, s => s
  | n + 1, s => outerSkip keyFn n (outerNext keyFn s).2

/-- The stale-inner scenario from the specification: construct groupby
on the input, pull the first group without draining its inner cursor,
advance the outer cursor the given number of further times, then
collect the first (now stale) inner cursor. -/
def staleFirstInner [DecidableEq κ] (keyFn : α → κ) (input : List α)
    (advances : Nat) : List α :=
  let s0 : GState α κ := ⟨input, none, none, none, false⟩
  match outerNext keyFn s0 with
  | (some k1, s1) =>
    let g1 : Grouper κ := ⟨k1, false, false⟩
    let s2 := outerSkip keyFn advances s1
    innerCollect keyFn (s2.rest.length + 2) g1 s2
  | (none, _) => []

/-- A one-shot cursor over a sequence: the underlying elements and the
current position.  Pulling past the end keeps signalling exhaustion. -/
structure Cursor (α : Type u) where
  elems : List α
  pos : Nat
deriving Repr, DecidableEq

/-- One pull on a cursor. -/
def Cursor.next (c : Cursor α) : Option α × Cursor α :=
  match c.elems[c.pos]? with
  | some v => (some v, ⟨c.elems, c.pos + 1⟩)
  | none => (none, c)

/-- The argument of the iter adapter from builtins.ts: either a plain
sequence (a JS array, whose Symbol.iterator call makes a fresh cursor at
position zero) or an existing cursor (a generator object, whose
Symbol.iterator call returns the very same object). -/
inductive JsIterable (α : Type u) where
  | seq (xs : List α)
  | cur (c : Cursor α)
deriving Repr, DecidableEq

/-- Source function iter from builtins.ts: return the result of the
Symbol.iterator lookup on the argument — a fresh cursor for a sequence,
the unchanged cursor itself for a cursor. -/
def iter : JsIterable α → Cursor α
  | JsIterable.seq xs => ⟨xs, 0⟩
  | JsIterable.cur c => c

/-- Pulling a cursor to exhaustion, collecting the produced values. -/
def collectFrom : Nat → Cursor α → List α
  | 0, _ => []
  | fuel + 1, c =>
    match c.next with
    | (some v, c1) => v :: collectFrom fuel c1
    | (none, _) => []

/-- Array.from on a cursor: collect all remaining values. -/
def Cursor.collect (c : Cursor α) : List α :=
  collectFrom (c.elems.length + 1) c

/-- The kind of a JS iterator with respect to IteratorClose: an array
iterator has no return method, so closing it is a no-op; a generator
object has one, so closing finishes the generator and every later pull
reports done. -/
inductive CursorKind where
  | arrayIter
  | generator
deriving Repr, DecidableEq

/-- The takewhile generator from itertools.ts run over a shared upstream
cursor of the given kind holding the given remaining elements: elements
are yielded while the predicate holds; the first failing element is
pulled from upstream by the for-of loop and dropped by the early
return.  That early return triggers the ECMAScript IteratorClose
protocol on the upstream cursor: a no-op on an array iterator, but on a
generator it invokes its return method and closes it, so nothing is
left for later consumers.  (The normal loop end on upstream exhaustion
performs no close, the iterator being already done.)  The result is the
yielded prefix and the elements a later consumer of the shared cursor
can still pull. -/
def takewhileRun (kind : CursorKind) (p : α → Bool) : List α → List α × List α
  | [] => ([], [])
  | x :: xs =>
    if p x then
      let r := takewhileRun kind p xs
      (x :: r.1, r.2)
    else
      ([], match kind with
        | CursorKind.arrayIter => xs
        | CursorKind.generator => [])

/-- One pull on the izipMany generator from itertools.ts with the input
cursors modelled by their remaining elements: every cursor is pulled
once (heads); if all pulls produced a value the list of values is
yielded and every cursor has advanced, otherwise the generator
returns. -/
def izipManyNext (its : List (List α)) : Option (List α × List (List α)) :=
  let heads := its.map List.head?
  if heads.all Option.isSome then some (heads.reduceOption, its.map List.tail)
  else none

/-- The value produced by pull number k (zero-based) on izipMany, none
when the generator is already exhausted at that pull. -/
def izipManyPull (its : List (List α)) : Nat → Option (List α)
  | 0 =>
    match izipManyNext its with
    | some r => some r.1
    | none => none
  | k + 1 =>
    match izipManyNext its with
    | some r => izipManyPull r.2 k
    | none => none

/-- Specification-side scan for dupes: the keys in the order they are
first detected as duplicates, i.e. each key is recorded at the arrival
of its second occurrence (the singles-to-multiples promotion moment);
seen holds the already-consumed prefix. -/
def promotionKeysAux [DecidableEq κ] (keyFn : α → κ) : List α → List α → List κ
  | _, [] => []
  | seen, x :: rest =>
    (if seen.countP (fun y => decide (keyFn y = keyFn x)) = 1 then [keyFn x] else []) ++
      promotionKeysAux keyFn (seen ++ [x]) rest

/-- Specification-side: the duplicate keys of the input in promotion
order. -/
def promotionKeys [DecidableEq κ] (keyFn : α → κ) (items : List α) : List κ :=
  promotionKeysAux keyFn [] items

/-- Specification-side reading of the multiples map after consuming a
prefix: one entry per promoted key, in promotion order, holding every
occurrence of that key in input order. -/
def multiplesSpec [DecidableEq κ] (keyFn : α → κ) (pre : List α) : List (κ × List α) :=
  (promotionKeys keyFn pre).map
    (fun k => (k, pre.filter (fun x => decide (keyFn x = k))))

/-- Specification-side reading of the singles map after consuming a
prefix: one entry per key occurring exactly once, in occurrence order,
holding that single occurrence. -/
def singlesSpec [DecidableEq κ] (keyFn : α → κ) (pre : List α) : List (κ × α) :=
  pre.filterMap
    (fun x => if pre.countP (fun y => decide (keyFn y = keyFn x)) = 1
      then some (keyFn x, x) else none)

/-- Specification-side result of dupes: for each duplicate key in
promotion order, all its occurrences in input order. -/
def dupesSpec [DecidableEq κ] (keyFn : α → κ) (items : List α) : List (List α) :=
  (promotionKeys keyFn items).map
    (fun k => items.filter (fun x => decide (keyFn x = k)))

/-! Theorems. -/

theorem isliceRun_consumes_all (pred : Int → Bool) :
    ∀ (i : Int) (xs : List α),
      (isliceRun pred i xs).2.1 = xs.length ∧ (isliceRun pred i xs).2.2 = [] := by
  intro i xs
  induction xs generalizing i with
  | nil => simp [isliceRun]
  | cons x xs ih =>
    have h := ih (i + 1)
    simp [isliceRun, h.1, h.2]

/-- C1: the specification demands that islice stop pulling upstream the
instant the index reaches stop, terminating on infinite upstream input
and leaving later elements for other consumers of the shared cursor.
The generator loop in the source has no early exit: it always drains the
whole upstream.  Concretely, slicing a 10-element upstream with stop 1
pulls all 10 upstream elements and leaves nothing behind, where the
claim permits at most 1 pull. -/
theorem islice_exhausts_upstream :
    (∀ (α : Type) (pred : Int → Bool) (i : Int) (xs : List α),
        (isliceRun pred i xs).2.1 = xs.length ∧ (isliceRun pred i xs).2.2 = []) ∧
    Itertools.islice (List.range 10) 0 (some 1) 1 = Except.ok ([0], 10, []) := by
  exact ⟨fun α pred i xs => isliceRun_consumes_all pred i xs, rfl⟩

/-- C8 counterexample: the claim says step = 0 raises a usage error, but
slicePredicate only rejects negative steps, so islice with step 0 is
accepted without any error. -/
theorem slicePredicate_step_zero_counterexample :
    sliceParamsError 0 (some 5) 0 = none := by
  rfl

/-- C8 amended: islice fails fast, before any upstream element is
pulled, exactly for start < 0, stop < 0, or step < 0; step = 0 is
accepted (the step filter in the source only applies when step > 1).
The second conjunct shows the error is decided by the parameters alone,
independent of the upstream. -/
theorem islice_param_validation :
    (∀ (start : Int) (stop : Option Int) (step : Int),
        sliceParamsError start stop step = none ↔
          0 ≤ start ∧ stopIsNeg stop = false ∧ 0 ≤ step) ∧
    (∀ (α : Type) (xs : List α) (start : Int) (stop : Option Int) (step : Int)
        (e : SliceError),
        Itertools.islice xs start stop step = Except.error e ↔
          sliceParamsError start stop step = some e) := by
  constructor
  · intro start stop step
    by_cases h1 : start < 0
    · have he : sliceParamsError start stop step = some SliceError.startNegative := by
        unfold sliceParamsError slicePredicate
        rw [if_pos h1]
      rw [he]
      simp
      intro hc
      omega
    · by_cases h2 : stopIsNeg stop = true
      · have he : sliceParamsError start stop step = some SliceError.stopNegative := by
          unfold sliceParamsError slicePredicate
          rw [if_neg h1, if_pos h2]
        rw [he]
        simp [h2]
      · by_cases h3 : step < 0
        · have he : sliceParamsError start stop step = some SliceError.stepNegative := by
            unfold sliceParamsError slicePredicate
            rw [if_neg h1, if_neg h2, if_pos h3]
          rw [he]
          simp
          intro _ _
          omega
        · have he : sliceParamsError start stop step = none := by
            unfold sliceParamsError slicePredicate
            rw [if_neg h1, if_neg h2, if_neg h3]
          rw [he]
          simp only [Bool.not_eq_true] at h2
          simp [h2]
          omega
  · intro α xs start stop step e
    unfold Itertools.islice sliceParamsError
    cases slicePredicate start stop step <;> simp

/-- C6: the iter adapter is idempotent and transparent.  Applied to a
cursor it returns that very cursor with no new state; triple wrapping of
a sequence is the same cursor as single wrapping, so collecting through
the wrappers produces the same values in the same order, and a pull
through a wrapper is exactly a pull on the one shared cursor. -/
theorem iter_idempotent :
    (∀ (α : Type) (c : Cursor α), iter (JsIterable.cur c) = c) ∧
    (∀ (α : Type) (s : List α),
        iter (JsIterable.cur (iter (JsIterable.cur (iter (JsIterable.seq s))))) =
          iter (JsIterable.seq s)) ∧
    (∀ (α : Type) (s : List α),
        (iter (JsIterable.cur (iter (JsIterable.cur (iter (JsIterable.seq s)))))).collect =
          (iter (JsIterable.seq s)).collect) ∧
    (∀ (α : Type) (c : Cursor α), (iter (JsIterable.cur c)).next = c.next) :=
  ⟨fun _ _ => rfl, fun _ _ => rfl, fun _ _ => rfl, fun _ _ => rfl⟩

/-- C9: the claim requires that for every shared cursor, after takewhile
stops on a failing element, a later consumer observes exactly the
elements after that failing one.  On an array-backed cursor the code
does behave so (second conjunct), but the for-of loop in this snapshot
of takewhile closes a generator-backed shared cursor on its early
return, so a later consumer of a generator observes nothing: on the
generator of [0,1,2,3,4] with predicate n < 2, the prefix [0,1] is
yielded, the failing element 2 is consumed and dropped, and the
remaining [3,4] are lost (first conjunct) where the claim requires them
to still be pullable. -/
theorem takewhile_closes_generator :
    takewhileRun CursorKind.generator (fun n => decide (n < 2)) ([0, 1, 2, 3, 4] : List Nat) =
      ([0, 1], []) ∧
    takewhileRun CursorKind.arrayIter (fun n => decide (n < 2)) ([0, 1, 2, 3, 4] : List Nat) =
      ([0, 1], [3, 4]) := by
  exact ⟨rfl, rfl⟩

/-- C10: izipMany with zero inputs never exhausts — every pull yields
the empty tuple, because the all-inputs-live check is vacuously true —
while izipMany with at least one already-empty input exhausts on its
first pull. -/
theorem izipMany_zero_inputs :
    (∀ k : Nat, izipManyPull ([] : List (List Nat)) k = some []) ∧
    (∀ its : List (List Nat), [] ∈ its → izipManyNext its = none) := by
  constructor
  · intro k
    induction k with
    | zero => rfl
    | succ k ih =>
      simpa [izipManyPull, izipManyNext] using ih
  · intro its h
    unfold izipManyNext
    have hall : (its.map List.head?).all Option.isSome = false := by
      simpa using h
    simp [hall]

theorem izipMany_zero_inputs_witness :
    (([] : List Nat) ∈ ([[]] : List (List Nat))) ∧
    izipManyNext ([[]] : List (List Nat)) = none ∧
    izipManyPull ([] : List (List Nat)) 3 = some [] :=
  ⟨by simp, izipMany_zero_inputs.2 [[]] (by simp), izipMany_zero_inputs.1 3⟩

/-- C4: roundrobin pulls one element per round from each still-live
source in list order, dropping an exhausted source on the spot without
skipping the following source in the same round (first conjunct: a
round yields exactly the heads of the live sources in order and keeps
exactly the tails of the non-exhausted ones); concretely the three
uneven sources interleave to the specified sequence. -/
theorem roundrobin_fairness :
    (∀ (α : Type) (its : List (List α)),
        roundrobinRound its = (its.filterMap List.head?, its.filterMap List.tail?)) ∧
    roundrobin [[1, 2, 3], [4], [5, 6, 7, 8]] = [1, 4, 5, 2, 6, 3, 7, 8] := by
  constructor
  · intro α its
    induction its with
    | nil => rfl
    | cons xs rest ih =>
      cases xs with
      | nil => simpa [roundrobinRound] using ih
      | cons y ys => simp [roundrobinRound, ih]
  · decide

theorem rangeList_decreasing_empty (start stop : Int) (h : ¬ start > stop) :
    rangeList start stop (-1) = [] := by
  unfold rangeList
  simp only [rangeAux]
  have hs : ¬ ((-1 : Int) ≥ 0) := by norm_num
  simp [hs, h]

theorem rangeAux_eq_range (k : Nat) : ∀ (f : Nat) (m : Int),
    rangeAux (k + f + 1) m (m + (k : Int)) 1 =
      (List.range k).map (fun i : Nat => m + (i : Int)) := by
  induction k with
  | zero =>
    intro f m
    simp [rangeAux]
  | succ k ih =>
    intro f m
    simp only [rangeAux]
    have hc : (if (1 : Int) ≥ 0 then m < m + ((k + 1 : Nat) : Int)
        else m > m + ((k + 1 : Nat) : Int)) := by
      rw [if_pos (by norm_num : (1 : Int) ≥ 0)]
      push_cast
      omega
    rw [if_pos hc]
    have hf : k + 1 + f = k + f + 1 := by omega
    rw [hf]
    have hstop : m + ((k + 1 : Nat) : Int) = (m + 1) + (k : Int) := by push_cast; ring
    rw [hstop, ih f (m + 1)]
    rw [List.range_succ_eq_map, List.map_cons, List.map_map]
    refine congrArg₂ _ (by push_cast; ring) ?_
    refine List.map_congr_left ?_
    intro i _
    simp only [Function.comp]
    push_cast
    ring

theorem rangeList_eq_range (n : Nat) :
    rangeList 0 (n : Int) 1 = (List.range n).map (fun i : Nat => (i : Int)) := by
  unfold rangeList
  have h1 : (((n : Int)) - 0).natAbs = n := by omega
  rw [h1]
  have h2 : n + 1 = n + 0 + 1 := by omega
  rw [h2]
  have h3 := rangeAux_eq_range n 0 0
  simp only [zero_add] at h3
  rw [h3]

theorem jsSlice_zero_neg (xs : List α) (e : Int) (he : e < 0) :
    jsSlice xs 0 e = xs.take (((xs.length : Int) + e)).toNat := by
  simp only [jsSlice]
  rw [if_neg (by omega : ¬ ((0 : Int) < 0)), if_pos he]
  have e1 : (min (0 : Int) (xs.length : Int)).toNat = 0 := by omega
  have e2 : (max ((xs.length : Int) + e) 0).toNat = ((xs.length : Int) + e).toNat := by omega
  rw [e1, e2, List.drop_zero]

theorem take_map_poolgetter [Inhabited α] (pool : List α) (m : Nat)
    (hm : m ≤ pool.length) :
    (((List.range pool.length).map (fun i : Nat => (i : Int))).take m).map (poolgetter pool) =
      pool.take m := by
  rw [← List.map_take, List.take_range, Nat.min_eq_left hm, List.map_map]
  refine List.ext_getElem (by simp [hm]) ?_
  intro i h1 h2
  simp only [List.getElem_map, List.getElem_range, Function.comp, List.getElem_take]
  have hi : i < pool.length := by
    simp at h2
    omega
  unfold poolgetter jsGetD
  rw [if_neg (by omega : ¬ ((i : Int) < 0))]
  simp [List.getD_eq_getElem?_getD, List.getElem?_eq_getElem hi]

/-- C3: permutations of [1,2,3] are exactly the 6 tuples in
lexicographic-by-position order, and for every pool and every r larger
than the pool size the generator yields zero results. -/
theorem permutations_order_and_bounds :
    permutations ([1, 2, 3] : List Nat) none =
      [[1, 2, 3], [1, 3, 2], [2, 1, 3], [2, 3, 1], [3, 1, 2], [3, 2, 1]] ∧
    (∀ (α : Type) [Inhabited α] (pool : List α) (r : Int),
        (pool.length : Int) < r → permutations pool (some r) = []) := by
  constructor
  · rfl
  · intro α _ pool r h
    unfold permutations
    rw [if_pos]
    exact h

theorem permutations_order_and_bounds_witness :
    ((([1, 2] : List Nat).length : Int) < 5) ∧
    permutations ([1, 2] : List Nat) (some 5) = [] :=
  ⟨by decide, permutations_order_and_bounds.2 Nat [1, 2] 5 (by decide)⟩

/-- C7 counterexample: permutations with a negative r does not yield
zero results — on the pool [1,2] with r = -1 it yields exactly one
tuple, the slice-truncated prefix [1]. -/
theorem permutations_negative_r_counterexample :
    permutations ([1, 2] : List Nat) (some (-1)) = [[1]] ∧
    permutations ([1, 2] : List Nat) (some (-1)) ≠ [] := by
  exact ⟨rfl, by decide⟩

/-- C7 amended: permutations with a negative r raises no error, but
instead of zero results it yields exactly one tuple: the first
max(n + r, 0) pool elements, by the JS negative-end slice semantics
applied in the initial yield, after which the cycling loop exits
cleanly (the scan range and the cycles array are both empty). -/
theorem permutations_negative_r (α : Type) [Inhabited α] (pool : List α) (r : Int)
    (h : r < 0) :
    permutations pool (some r) = [pool.take ((pool.length : Int) + r).toNat] := by
  unfold permutations
  have hx : ¬ ((r : Int) > (pool.length : Int)) := by omega
  rw [if_neg hx]
  have hcyc : rangeList (pool.length : Int) ((pool.length : Int) - r) (-1) = [] :=
    rangeList_decreasing_empty _ _ (by omega)
  have hscan : rangeList (r - 1) (-1) (-1) = [] :=
    rangeList_decreasing_empty _ _ (by omega)
  have hind := rangeList_eq_range pool.length
  rw [hcyc, hind]
  have hhead :
      (jsSlice ((List.range pool.length).map (fun i : Nat => (i : Int))) 0 r).map
          (poolgetter pool) = pool.take ((pool.length : Int) + r).toNat := by
    rw [jsSlice_zero_neg _ _ h]
    have hlen : ((((List.range pool.length).map (fun i : Nat => (i : Int))).length : Int) + r) =
        ((pool.length : Int) + r) := by simp
    rw [hlen]
    exact take_map_poolgetter pool _ (by omega)
  show (jsSlice ((List.range pool.length).map (fun i : Nat => (i : Int))) 0 r).map
        (poolgetter pool) ::
      permLoop pool (pool.length : Int) r (pool.length.factorial + 1)
        ((List.range pool.length).map (fun i : Nat => (i : Int))) [] =
    [pool.take ((pool.length : Int) + r).toNat]
  rw [hhead]
  refine congrArg₂ _ rfl ?_
  simp only [permLoop]
  by_cases hn : ((pool.length : Int) > 0)
  · rw [if_pos hn, hscan]
    simp [permScan]
  · rw [if_neg hn]

theorem permutations_negative_r_witness :
    ((-1 : Int) < 0) ∧
    permutations ([1, 2] : List Nat) (some (-1)) =
      [([1, 2] : List Nat).take (((([1, 2] : List Nat).length : Int)) + (-1)).toNat] :=
  ⟨by decide, permutations_negative_r Nat [1, 2] (-1) (by decide)⟩

/-- C2 counterexample: the claimed invalidation is violated when a later
group has the same key value as the stale inner cursor.  On input
[1,2,1], pull the first group (key 1) without draining it, advance the
outer cursor twice (reaching the third group, whose key is again 1):
collecting the stale first inner cursor then yields [1] — it resumes on
the later same-key group instead of reporting exhaustion. -/
theorem groupby_stale_inner_same_key_counterexample :
    staleFirstInner id ([1, 2, 1] : List Nat) 2 = [1] ∧
    staleFirstInner id ([1, 2, 1] : List Nat) 2 ≠ [] :=
  ⟨rfl, by decide⟩

/-- C2 amended: a stale, never-pulled inner groupby cursor signals
exhaustion — leaving the shared state untouched — exactly when the
shared currentKey differs from its target key (which after advancing the
outer cursor means no later group re-used the stale key), and once its
generator has returned every later pull keeps signalling exhaustion; in
the concrete two-advance scenario with distinct later keys, collecting
the stale first inner cursor yields the empty result. -/
theorem groupby_stale_inner_invalidation :
    (∀ (κ α : Type) [DecidableEq κ] (keyFn : α → κ) (g : Grouper κ) (s : GState α κ),
        g.innerDone = false → g.started = false → s.currentKey ≠ some g.tgtKey →
          grouperNext keyFn g s = (none, ⟨g.tgtKey, false, true⟩, s)) ∧
    (∀ (κ α : Type) [DecidableEq κ] (keyFn : α → κ) (g : Grouper κ) (s : GState α κ),
        g.innerDone = true → grouperNext keyFn g s = (none, g, s)) ∧
    staleFirstInner id ([1, 1, 2, 2, 3] : List Nat) 2 = [] := by
  refine ⟨?_, ?_, ?_⟩
  · intro κ α _ keyFn g s hdone hstart hkey
    unfold grouperNext
    rw [if_neg (by simp [hdone]), if_pos hstart, if_neg hkey, hstart]
  · intro κ α _ keyFn g s hdone
    unfold grouperNext
    rw [if_pos (by simp [hdone])]
  · rfl

theorem groupby_stale_inner_invalidation_witness :
    ((Grouper.mk 1 false false : Grouper Nat).innerDone = false) ∧
    ((Grouper.mk 1 false false : Grouper Nat).started = false) ∧
    ((GState.mk ([] : List Nat) none (some 2) (some 2) false).currentKey ≠
      some (Grouper.mk 1 false false : Grouper Nat).tgtKey) ∧
    grouperNext id (Grouper.mk 1 false false)
        (GState.mk ([] : List Nat) none (some 2) (some 2) false) =
      (none, ⟨1, false, true⟩, GState.mk ([] : List Nat) none (some 2) (some 2) false) :=
  ⟨rfl, rfl, by decide,
    groupby_stale_inner_invalidation.1 Nat Nat id (Grouper.mk 1 false false)
      (GState.mk ([] : List Nat) none (some 2) (some 2) false) rfl rfl (by decide)⟩

theorem promotionKeysAux_append [DecidableEq κ] (keyFn : α → κ) (item : α) :
    ∀ (l seen : List α),
      promotionKeysAux keyFn seen (l ++ [item]) =
        promotionKeysAux keyFn seen l ++
          (if (seen ++ l).countP (fun y => decide (keyFn y = keyFn item)) = 1
            then [keyFn item] else []) := by
  intro l
  induction l with
  | nil =>
    intro seen
    simp [promotionKeysAux]
  | cons x l ih =>
    intro seen
    simp only [List.cons_append, promotionKeysAux, List.append_eq, ih (seen ++ [x]),
      List.append_assoc, List.singleton_append, List.nil_append]

theorem mem_promotionKeysAux [DecidableEq κ] (keyFn : α → κ) (k : κ) :
    ∀ (l seen : List α),
      k ∈ promotionKeysAux keyFn seen l ↔
        seen.countP (fun y => decide (keyFn y = k)) ≤ 1 ∧
          2 ≤ seen.countP (fun y => decide (keyFn y = k)) +
              l.countP (fun y => decide (keyFn y = k)) := by
  intro l
  induction l with
  | nil =>
    intro seen
    simp [promotionKeysAux]
    omega
  | cons x l ih =>
    intro seen
    by_cases hx : keyFn x = k
    · subst hx
      have happ : (seen ++ [x]).countP (fun y => decide (keyFn y = keyFn x)) =
          seen.countP (fun y => decide (keyFn y = keyFn x)) + 1 := by
        simp [List.countP_append, List.countP_cons]
      have hcons : (x :: l).countP (fun y => decide (keyFn y = keyFn x)) =
          l.countP (fun y => decide (keyFn y = keyFn x)) + 1 := by
        simp [List.countP_cons]
      by_cases hs : seen.countP (fun y => decide (keyFn y = keyFn x)) = 1
      · have hlhs : keyFn x ∈ promotionKeysAux keyFn seen (x :: l) := by
          simp [promotionKeysAux, hs]
        rw [hcons, hs]
        exact iff_of_true hlhs (by omega)
      · have hsplit : promotionKeysAux keyFn seen (x :: l) =
            promotionKeysAux keyFn (seen ++ [x]) l := by
          simp [promotionKeysAux, hs]
        rw [hsplit, ih (seen ++ [x]), happ, hcons]
        omega
    · have hxk : ¬ (k = keyFn x) := fun h => hx h.symm
      have happ : (seen ++ [x]).countP (fun y => decide (keyFn y = k)) =
          seen.countP (fun y => decide (keyFn y = k)) := by
        simp [List.countP_append, List.countP_cons, hx]
      have hcons : (x :: l).countP (fun y => decide (keyFn y = k)) =
          l.countP (fun y => decide (keyFn y = k)) := by
        simp [List.countP_cons, hx]
      have hsplit : k ∈ promotionKeysAux keyFn seen (x :: l) ↔
          k ∈ promotionKeysAux keyFn (seen ++ [x]) l := by
        by_cases hs : seen.countP (fun y => decide (keyFn y = keyFn x)) = 1 <;>
          simp [promotionKeysAux, hs, hxk]
      rw [hsplit, ih (seen ++ [x]), happ, hcons]

theorem lookup_map_keyed [DecidableEq κ] (f : κ → β) :
    ∀ (ks : List κ) (k : κ),
      (ks.map (fun k0 => (k0, f k0))).lookup k = if k ∈ ks then some (f k) else none := by
  intro ks
  induction ks with
  | nil => intro k; simp
  | cons k0 ks ih =>
    intro k
    by_cases h : k = k0
    · subst h
      simp [List.lookup]
    · simp [List.lookup, beq_false_of_ne h, ih k, h]

theorem multiplesSpec_lookup [DecidableEq κ] (keyFn : α → κ) (pre : List α) (k : κ) :
    (multiplesSpec keyFn pre).lookup k =
      if 2 ≤ pre.countP (fun y => decide (keyFn y = k))
        then some (pre.filter (fun x => decide (keyFn x = k))) else none := by
  unfold multiplesSpec
  rw [lookup_map_keyed]
  have hm : (k ∈ promotionKeys keyFn pre) ↔
      2 ≤ pre.countP (fun y => decide (keyFn y = k)) := by
    unfold promotionKeys
    rw [mem_promotionKeysAux]
    simp
  by_cases h : 2 ≤ pre.countP (fun y => decide (keyFn y = k))
  · rw [if_pos (hm.mpr h), if_pos h]
  · rw [if_neg (fun hh => h (hm.mp hh)), if_neg h]

theorem find?_eq_head?_filter (p : α → Bool) :
    ∀ l : List α, l.find? p = (l.filter p).head? := by
  intro l
  induction l with
  | nil => simp
  | cons x l ih =>
    by_cases hx : p x
    · rw [List.find?_cons_of_pos _ hx, List.filter_cons_of_pos hx]
      rfl
    · rw [List.find?_cons_of_neg _ hx, List.filter_cons_of_neg hx, ih]

theorem countP_one_filter (p : α → Bool) (l : List α) (h : l.countP p = 1) :
    ∃ a, l.filter p = [a] ∧ p a = true ∧ l.find? p = some a := by
  have hlen : (l.filter p).length = 1 := by
    rw [← List.countP_eq_length_filter]
    exact h
  obtain ⟨a, ha⟩ := List.length_eq_one.mp hlen
  refine ⟨a, ha, ?_, ?_⟩
  · have hmem : a ∈ l.filter p := by simp [ha]
    exact (List.mem_filter.mp hmem).2
  · rw [find?_eq_head?_filter, ha]
    rfl

theorem singles_lookup_aux [DecidableEq κ] (keyFn : α → κ) (pre : List α) (k : κ) :
    ∀ (dom : List α),
      (dom.filterMap (fun x => if pre.countP (fun y => decide (keyFn y = keyFn x)) = 1
          then some (keyFn x, x) else none)).lookup k =
        (if pre.countP (fun y => decide (keyFn y = k)) = 1
          then dom.find? (fun x => decide (keyFn x = k)) else none) := by
  intro dom
  induction dom with
  | nil => simp
  | cons x dom ih =>
    by_cases hx : keyFn x = k
    · subst hx
      by_cases hc : pre.countP (fun y => decide (keyFn y = keyFn x)) = 1
      · simp [List.filterMap_cons, hc, List.lookup, List.find?_cons_of_pos]
      · simp [List.filterMap_cons, hc, List.find?_cons_of_neg, ih]
    · have hxk : ¬ (k = keyFn x) := fun hh => hx hh.symm
      by_cases hc : pre.countP (fun y => decide (keyFn y = keyFn x)) = 1
      · simp [List.filterMap_cons, hc, List.lookup, beq_false_of_ne hxk,
          List.find?_cons_of_neg, hx, ih]
      · simp [List.filterMap_cons, hc, List.find?_cons_of_neg, hx, ih]

theorem singlesSpec_lookup [DecidableEq κ] (keyFn : α → κ) (pre : List α) (k : κ) :
    (singlesSpec keyFn pre).lookup k =
      if pre.countP (fun y => decide (keyFn y = k)) = 1
        then pre.find? (fun x => decide (keyFn x = k)) else none := by
  unfold singlesSpec
  exact singles_lookup_aux keyFn pre k pre

theorem mapDelete_filterMap [DecidableEq κ] (g : α → Option (κ × β)) (k : κ) :
    ∀ l : List α,
      mapDelete (l.filterMap g) k =
        l.filterMap (fun x => (g x).bind (fun p => if p.1 ≠ k then some p else none)) := by
  intro l
  induction l with
  | nil => rfl
  | cons x l ih =>
    cases hgx : g x with
    | none => simp [List.filterMap_cons, hgx, ih]
    | some p =>
      by_cases hp : p.1 = k
      · simp [List.filterMap_cons, hgx, mapDelete, List.filter_cons, hp, ih]
        simp [mapDelete] at ih
        exact ih
      · simp [List.filterMap_cons, hgx, mapDelete, List.filter_cons, hp, ih]
        simp [mapDelete] at ih
        exact ih


theorem countP_append_singleton [DecidableEq κ] (keyFn : α → κ) (pre : List α)
    (item : α) (k : κ) :
    (pre ++ [item]).countP (fun y => decide (keyFn y = k)) =
      pre.countP (fun y => decide (keyFn y = k)) +
        (if keyFn item = k then 1 else 0) := by
  by_cases h : keyFn item = k <;>
    simp [List.countP_append, List.countP_cons, h]

theorem multiplesSpec_append_push [DecidableEq κ] (keyFn : α → κ) (pre : List α) (item : α)
    (hc : 2 ≤ pre.countP (fun y => decide (keyFn y = keyFn item))) :
    mapPush (multiplesSpec keyFn pre) (keyFn item) item =
      multiplesSpec keyFn (pre ++ [item]) := by
  unfold multiplesSpec mapPush
  have hpk : promotionKeys keyFn (pre ++ [item]) = promotionKeys keyFn pre := by
    unfold promotionKeys
    rw [promotionKeysAux_append]
    have hne : ¬ (([] ++ pre : List α).countP
        (fun y => decide (keyFn y = keyFn item)) = 1) := by
      simp only [List.nil_append]
      omega
    rw [if_neg hne, List.append_nil]
  rw [hpk, List.map_map]
  refine List.map_congr_left ?_
  intro k hk
  by_cases hkk : k = keyFn item
  · subst hkk
    simp [Function.comp, List.filter_append, List.filter_cons]
  · have hik : ¬ (keyFn item = k) := fun hh => hkk hh.symm
    simp [Function.comp, hkk, hik, List.filter_append, List.filter_cons]

theorem multiplesSpec_append_promote [DecidableEq κ] (keyFn : α → κ) (pre : List α)
    (item a : α)
    (hc : pre.countP (fun y => decide (keyFn y = keyFn item)) = 1)
    (ha : pre.filter (fun x => decide (keyFn x = keyFn item)) = [a]) :
    multiplesSpec keyFn pre ++ [(keyFn item, [a, item])] =
      multiplesSpec keyFn (pre ++ [item]) := by
  unfold multiplesSpec
  have hpk : promotionKeys keyFn (pre ++ [item]) =
      promotionKeys keyFn pre ++ [keyFn item] := by
    unfold promotionKeys
    rw [promotionKeysAux_append]
    simp [hc]
  rw [hpk, List.map_append]
  refine congrArg₂ _ ?_ ?_
  · refine (List.map_congr_left ?_).symm
    intro k hk
    have hk2 : 2 ≤ pre.countP (fun y => decide (keyFn y = k)) := by
      have hmem := (mem_promotionKeysAux keyFn k pre []).mp hk
      simpa using hmem.2
    have hik : ¬ (keyFn item = k) := by
      intro hh
      rw [hh] at hc
      omega
    simp [List.filter_append, List.filter_cons, hik]
  · simp [List.filter_append, List.filter_cons, ha]

theorem multiplesSpec_append_zero [DecidableEq κ] (keyFn : α → κ) (pre : List α)
    (item : α)
    (hc : pre.countP (fun y => decide (keyFn y = keyFn item)) = 0) :
    multiplesSpec keyFn pre = multiplesSpec keyFn (pre ++ [item]) := by
  unfold multiplesSpec
  have hpk : promotionKeys keyFn (pre ++ [item]) = promotionKeys keyFn pre := by
    unfold promotionKeys
    rw [promotionKeysAux_append]
    have hne : ¬ (([] ++ pre : List α).countP
        (fun y => decide (keyFn y = keyFn item)) = 1) := by
      simp only [List.nil_append]
      omega
    rw [if_neg hne, List.append_nil]
  rw [hpk]
  refine List.map_congr_left ?_
  intro k hk
  have hk2 : 2 ≤ pre.countP (fun y => decide (keyFn y = k)) := by
    have hmem := (mem_promotionKeysAux keyFn k pre []).mp hk
    simpa using hmem.2
  have hik : ¬ (keyFn item = k) := by
    intro hh
    rw [hh] at hc
    omega
  simp [List.filter_append, List.filter_cons, hik]

theorem singlesItemPart [DecidableEq κ] (keyFn : α → κ) (pre : List α) (item : α)
    (hne : ¬ ((pre ++ [item]).countP (fun y => decide (keyFn y = keyFn item)) = 1)) :
    ([item].filterMap
      (fun x => if (pre ++ [item]).countP (fun y => decide (keyFn y = keyFn x)) = 1
        then some (keyFn x, x) else none)) = [] := by
  simp only [List.filterMap_cons, List.filterMap_nil]
  rw [if_neg hne]

theorem singlesSpec_append_many [DecidableEq κ] (keyFn : α → κ) (pre : List α) (item : α)
    (hc : 2 ≤ pre.countP (fun y => decide (keyFn y = keyFn item))) :
    singlesSpec keyFn (pre ++ [item]) = singlesSpec keyFn pre := by
  unfold singlesSpec
  rw [List.filterMap_append]
  have h1 := countP_append_singleton keyFn pre item (keyFn item)
  rw [if_pos rfl] at h1
  rw [singlesItemPart keyFn pre item (by omega), List.append_nil]
  refine List.filterMap_congr ?_
  intro x hx
  rw [countP_append_singleton keyFn pre item (keyFn x)]
  by_cases hk : keyFn item = keyFn x
  · rw [if_pos hk]
    have hcx : 2 ≤ pre.countP (fun y => decide (keyFn y = keyFn x)) := by
      rw [← hk]
      exact hc
    rw [if_neg (by omega), if_neg (by omega)]
  · rw [if_neg hk, Nat.add_zero]

theorem singlesSpec_append_delete [DecidableEq κ] (keyFn : α → κ) (pre : List α) (item : α)
    (hc : pre.countP (fun y => decide (keyFn y = keyFn item)) = 1) :
    mapDelete (singlesSpec keyFn pre) (keyFn item) = singlesSpec keyFn (pre ++ [item]) := by
  unfold singlesSpec
  rw [mapDelete_filterMap, List.filterMap_append]
  have h1 := countP_append_singleton keyFn pre item (keyFn item)
  rw [if_pos rfl] at h1
  rw [singlesItemPart keyFn pre item (by omega), List.append_nil]
  refine List.filterMap_congr ?_
  intro x hx
  rw [countP_append_singleton keyFn pre item (keyFn x)]
  by_cases hk : keyFn item = keyFn x
  · have hcx : pre.countP (fun y => decide (keyFn y = keyFn x)) = 1 := by
      rw [← hk]
      exact hc
    rw [if_pos hcx, if_pos hk, if_neg (by omega)]
    simp [← hk]
  · rw [if_neg hk, Nat.add_zero]
    by_cases h1x : pre.countP (fun y => decide (keyFn y = keyFn x)) = 1
    · rw [if_pos h1x]
      have hne : ¬ (keyFn x = keyFn item) := fun hh => hk hh.symm
      simp [hne]
    · rw [if_neg h1x]
      rfl

theorem singlesSpec_append_new [DecidableEq κ] (keyFn : α → κ) (pre : List α) (item : α)
    (hc : pre.countP (fun y => decide (keyFn y = keyFn item)) = 0) :
    singlesSpec keyFn (pre ++ [item]) = singlesSpec keyFn pre ++ [(keyFn item, item)] := by
  unfold singlesSpec
  rw [List.filterMap_append]
  refine congrArg₂ _ ?_ ?_
  · refine List.filterMap_congr ?_
    intro x hx
    by_cases hk : keyFn item = keyFn x
    · exfalso
      have hpos : 0 < pre.countP (fun y => decide (keyFn y = keyFn item)) := by
        rw [List.countP_pos_iff]
        exact ⟨x, hx, by simp [hk.symm]⟩
      omega
    · rw [countP_append_singleton keyFn pre item (keyFn x), if_neg hk, Nat.add_zero]
  · have h1 := countP_append_singleton keyFn pre item (keyFn item)
    rw [if_pos rfl] at h1
    simp only [List.filterMap_cons, List.filterMap_nil]
    rw [h1, hc, if_pos rfl]

theorem dupesLoop_spec [DecidableEq κ] (keyFn : α → κ) :
    ∀ (rest pre : List α),
      dupesLoop keyFn rest (multiplesSpec keyFn pre) (singlesSpec keyFn pre) =
        multiplesSpec keyFn (pre ++ rest) := by
  intro rest
  induction rest with
  | nil =>
    intro pre
    simp [dupesLoop]
  | cons item rest ih =>
    intro pre
    have hml := multiplesSpec_lookup keyFn pre (keyFn item)
    have hsl := singlesSpec_lookup keyFn pre (keyFn item)
    have hassoc : (pre ++ [item]) ++ rest = pre ++ (item :: rest) := by
      simp
    by_cases hc2 : 2 ≤ pre.countP (fun y => decide (keyFn y = keyFn item))
    · rw [if_pos hc2] at hml
      simp only [dupesLoop, hml, Option.isSome_some, if_pos]
      rw [multiplesSpec_append_push keyFn pre item hc2,
        ← singlesSpec_append_many keyFn pre item hc2, ih (pre ++ [item]), hassoc]
    · rw [if_neg hc2] at hml
      by_cases hc1 : pre.countP (fun y => decide (keyFn y = keyFn item)) = 1
      · rw [if_pos hc1] at hsl
        obtain ⟨a, ha, hpa, hfind⟩ := countP_one_filter _ pre hc1
        rw [hfind] at hsl
        simp only [dupesLoop, hml, hsl, Option.isSome_none, Bool.false_eq_true, if_false]
        rw [multiplesSpec_append_promote keyFn pre item a hc1 ha,
          singlesSpec_append_delete keyFn pre item hc1, ih (pre ++ [item]), hassoc]
      · have hc0 : pre.countP (fun y => decide (keyFn y = keyFn item)) = 0 := by omega
        rw [if_neg hc1] at hsl
        simp only [dupesLoop, hml, hsl, Option.isSome_none, Bool.false_eq_true, if_false]
        rw [multiplesSpec_append_zero keyFn pre item hc0,
          ← singlesSpec_append_new keyFn pre item hc0, ih (pre ++ [item]), hassoc]


/-- C5: dupes yields exactly the groups of elements whose key occurs
more than once (second conjunct: a key is promoted iff it occurs at
least twice), each group holding all occurrences of its key in input
order, with the groups ordered by the moment the key was first detected
as a duplicate (first conjunct: the result equals the specification map
over the promotion-ordered duplicate keys); concretely the example input
produces exactly the three specified groups. -/
theorem dupes_groups :
    (∀ (α κ : Type) [DecidableEq κ] (keyFn : α → κ) (items : List α),
        dupes items keyFn = dupesSpec keyFn items) ∧
    (∀ (α κ : Type) [DecidableEq κ] (keyFn : α → κ) (items : List α) (k : κ),
        k ∈ promotionKeys keyFn items ↔
          2 ≤ items.countP (fun x => decide (keyFn x = k))) ∧
    dupes "AAAABCDEEEFABG".toList id =
      [['A', 'A', 'A', 'A', 'A'], ['E', 'E', 'E'], ['B', 'B']] := by
  refine ⟨?_, ?_, ?_⟩
  · intro α κ _ keyFn items
    unfold dupes dupesSpec
    have h2 := dupesLoop_spec keyFn items []
    rw [show multiplesSpec keyFn ([] : List α) = [] from rfl,
      show singlesSpec keyFn ([] : List α) = [] from rfl, List.nil_append] at h2
    rw [h2]
    unfold multiplesSpec
    rw [List.map_map]
    simp [Function.comp]
  · intro α κ _ keyFn items k
    unfold promotionKeys
    rw [mem_promotionKeysAux]
    simp
  · rfl

end Itertools
